import Mathlib

/-!
Verification of the location-to-country resolution engine of
`src/analyze/diagrams.py`: text normalization (`_normalize_text`),
lookup-table construction (`build_country_lookup`), location resolution
(`infer_country_from_location`), and the aggregation / left-join step of
`plot_country_heatmap`.

Strings are modelled as `List Char` over the ASCII fragment, where the
NFKD-decomposition and combining-mark-removal steps of `_normalize_text`
are the identity; `\w` is `[A-Za-z0-9_]` and `\s` is the six ASCII
whitespace characters, matching the ASCII meaning of the Python regexes.
A Python `dict` is modelled as an association list where insertion conses
to the front and lookup takes the front-most (most recent) binding.
-/

abbrev Str := List Char

/-- Python `\s` (ASCII fragment): the whitespace class used by
`str.strip` and the `re.sub` calls in `_normalize_text`. -/
def isSpacePy (c : Char) : Bool :=
  c = ' ' || c = '\t' || c = '\n' || c = '\r' || c = '\x0b' || c = '\x0c'

/-- Python `\w` (ASCII fragment): word characters kept by
`re.sub(r"[^\w\s]", " ", s)`. -/
def isWordPy (c : Char) : Bool :=
  c.isAlphanum || c = '_'

/-- Python `str.strip()`: drop whitespace from both ends. -/
def pyStrip (l : Str) : Str :=
  ((l.dropWhile isSpacePy).reverse.dropWhile isSpacePy).reverse

/-- Models `re.sub(r"[^\w\s]", " ", s)`: replace every character that is neither
a word character nor whitespace by a single space. -/
def punctToSpace (l : Str) : Str :=
  l.map (fun c => if isWordPy c || isSpacePy c then c else ' ')

/-- State-passing core of `re.sub(r"\s+", " ", s)`: the flag records
whether we are inside a whitespace run that has already emitted its
single replacement space. -/
def collapseAux : Bool → Str → Str
  | _, [] => []
  | inSpace, c :: rest =>
    if isSpacePy c then
      if inSpace then collapseAux true rest
      else ' ' :: collapseAux true rest
    else c :: collapseAux false rest

/-- Models `re.sub(r"\s+", " ", s)`: collapse each whitespace run to one space. -/
def collapseSpaces (l : Str) : Str := collapseAux false l

/-- Models `_normalize_text` of `diagrams.py` on the ASCII fragment (NFKD and
combining-mark removal are the identity there): lowercase, strip, replace
punctuation by spaces, collapse whitespace runs.  Note the strip happens
before the punctuation substitution, exactly as in the source. -/
def normalize_text (s : Str) : Str :=
  collapseSpaces (punctToSpace (pyStrip (s.map Char.toLower)))

/-! ### The lookup dictionary -/

abbrev Lookup := List (Str × Str)

/-- Python `dict` insertion: the new binding shadows older ones. -/
def dictInsert (d : Lookup) (k v : Str) : Lookup := (k, v) :: d

/-- Python `dict` lookup (`d.get(k)` / `k in d` + `d[k]`): front-most binding. -/
def dictGet? (d : Lookup) (k : Str) : Option Str :=
  (d.find? (fun p => p.1 = k)).map (fun p => p.2)

/-! ### `build_country_lookup` -/

/-- One row of the reference dataset, restricted to the candidate columns
of `build_country_lookup`: `nameVal` is `str(row[name_col])` and
`otherVals` are the remaining candidate-column values (`none` models a
non-scalar value rejected by `is_scalar`). -/
structure RefRecord where
  nameVal : Str
  otherVals : List (Option Str)
deriving DecidableEq

/-- The placeholder strings skipped by
`if not s or s.lower() in {"nan", "none"}`. -/
def placeholderVals : List Str := ["nan".data, "none".data]

/-- One iteration of the alias loop of `build_country_lookup`
(`for c in candidate_cols: ...`). -/
def aliasStep (canonical : Str) (d : Lookup) (v : Option Str) : Lookup :=
  match v with
  | none => d
  | some val =>
    let s := pyStrip val
    if s = [] then d
    else if s.map Char.toLower ∈ placeholderVals then d
    else if normalize_text s = [] then d
    else dictInsert d (normalize_text s) canonical

/-- The alias loop of `build_country_lookup` over all candidate values. -/
def addAliases (canonical : Str) (d : Lookup) (vals : List (Option Str)) : Lookup :=
  vals.foldl (aliasStep canonical) d

/-- Processing of one row of `build_country_lookup`: skip the record if
the trimmed canonical name is empty, run the alias loop over the
candidate values (name column first), then write the self-mapping entry
`lookup[_normalize_text(canonical)] = canonical`. -/
def processRecord (d : Lookup) (r : RefRecord) : Lookup :=
  let canonical := pyStrip r.nameVal
  if canonical = [] then d
  else
    let l1 := addAliases canonical d (some r.nameVal :: r.otherVals)
    let keyCanon := normalize_text canonical
    if keyCanon = [] then l1 else dictInsert l1 keyCanon canonical

/-- Models `build_country_lookup`: fold record processing over the reference
rows in input iteration order. -/
def build_country_lookup (world : List RefRecord) : Lookup :=
  world.foldl processRecord []

/-! ### `infer_country_from_location` -/

/-- Python `str.split(",")`: split on commas, keeping empty pieces. -/
def pySplit (sep : Char) : Str → List Str
  | [] => [[]]
  | c :: rest =>
    if c = sep then [] :: pySplit sep rest
    else
      match pySplit sep rest with
      | [] => [[c]]
      | h :: t => (c :: h) :: t

/-- Models `re.fullmatch(r"[A-Z]{2}", token)`. -/
def isUpperAZ (c : Char) : Bool := 'A' ≤ c && c ≤ 'Z'

def isTwoUpperAZ : Str → Bool
  | [a, b] => isUpperAZ a && isUpperAZ b
  | _ => false

/-- The literal `"United States"` fallback of the US-state guess. -/
def usFallback : Str := "United States".data

/-- The token pass of `infer_country_from_location` (`for token in
reversed(tokens)`), including the optional US-state guess. -/
def scanTokens (country_lookup : Lookup) (allow : Bool) : List Str → Option Str
  | [] => none
  | token :: rest =>
    match dictGet? country_lookup (normalize_text token) with
    | some v => some v
    | none =>
      if allow && isTwoUpperAZ token then
        some ((dictGet? country_lookup (normalize_text usFallback)).getD usFallback)
      else scanTokens country_lookup allow rest

/-- Models `infer_country_from_location`: `none` input models `location=None`,
`some []` the empty string (both falsy in `if not location`). -/
def infer_country_from_location (location : Option Str) (country_lookup : Lookup)
    (allow_us_state_guess : Bool) : Option Str :=
  match location with
  | none => none
  | some loc =>
    if loc = [] then none
    else
      match dictGet? country_lookup (normalize_text loc) with
      | some v => some v
      | none =>
        let tokens := ((pySplit ',' loc).map pyStrip).filter (fun t => ¬t = [])
        scanTokens country_lookup allow_us_state_guess tokens.reverse

/-! ### Aggregation and join (`plot_country_heatmap`, lines 198–216) -/

/-- Models `Series.value_counts` of the resolved countries, in
first-occurrence order (pandas orders rows by descending frequency; row
order is immaterial to the verified properties). -/
def value_counts (l : List Str) : List (Str × Nat) :=
  l.dedup.map (fun n => (n, l.count n))

/-- Models `countries.dropna()` followed by the empty check (raising
`ValueError`) and `value_counts()`. -/
def aggregate (resolved : List (Option Str)) : Except String (List (Str × Nat)) :=
  let xs := resolved.filterMap id
  if xs = [] then
    Except.error "No resolvable countries from location values to plot."
  else Except.ok (value_counts xs)

/-- The `_join_name` column: `.astype(str).str.strip().str.lower()`. -/
def joinName (s : Str) : Str := (pyStrip s).map Char.toLower

/-- The left merge of `plot_country_heatmap`
(`world.merge(cc[["_join_name", "job_count"]], on="_join_name",
how="left")`): each reference row is paired with the `job_count` of every
count row sharing its join name, or with `none` (the NaN / "no data"
marker) when no count row matches. -/
def joinForReport (world : List RefRecord) (cc : List (Str × Nat)) :
    List (RefRecord × Option Nat) :=
  world.flatMap (fun r =>
    let ms := cc.filter (fun p => joinName p.1 = joinName r.nameVal)
    if ms = [] then [(r, none)]
    else ms.map (fun p => (r, some p.2)))


/-! ### Dictionary and builder lemmas -/

lemma dictGet?_insert (d : Lookup) (k v k' : Str) :
    dictGet? (dictInsert d k v) k' = if k' = k then some v else dictGet? d k' := by
  by_cases h : k' = k
  · subst h; simp [dictGet?, dictInsert, List.find?]
  · simp [dictGet?, dictInsert, List.find?, h, Ne.symm h]

/-- The normalized key that one candidate value contributes in the alias
loop of `build_country_lookup`, if any. -/
def aliasKey? (v : Option Str) : Option Str :=
  match v with
  | none => none
  | some val =>
    let s := pyStrip val
    if s = [] then none
    else if s.map Char.toLower ∈ placeholderVals then none
    else if normalize_text s = [] then none
    else some (normalize_text s)

/-- All keys that processing one record writes into the lookup (alias
keys plus the self-mapping key); every one of them is bound to the
record's trimmed canonical name. -/
def recordKeys (r : RefRecord) : List Str :=
  if pyStrip r.nameVal = [] then []
  else
    ((some r.nameVal :: r.otherVals).filterMap aliasKey?) ++
      (if normalize_text (pyStrip r.nameVal) = [] then []
       else [normalize_text (pyStrip r.nameVal)])

lemma aliasStep_get (c : Str) (d : Lookup) (v : Option Str) (k : Str) :
    dictGet? (aliasStep c d v) k =
      if aliasKey? v = some k then some c else dictGet? d k := by
  cases v with
  | none => simp [aliasStep, aliasKey?]
  | some val =>
    simp only [aliasStep, aliasKey?]
    by_cases h1 : pyStrip val = []
    · simp [h1]
    · by_cases h2 : (pyStrip val).map Char.toLower ∈ placeholderVals
      · simp [h1, h2]
      · by_cases h3 : normalize_text (pyStrip val) = []
        · simp [h1, h2, h3]
        · simp only [h1, h2, h3, if_false, dictGet?_insert, Option.some.injEq]
          by_cases hk : k = normalize_text (pyStrip val)
          · simp [hk]
          · simp [hk, Ne.symm hk]

lemma addAliases_get (c k : Str) :
    ∀ (vals : List (Option Str)) (d : Lookup),
      dictGet? (addAliases c d vals) k =
        if k ∈ vals.filterMap aliasKey? then some c else dictGet? d k := by
  intro vals
  induction vals with
  | nil => intro d; simp [addAliases]
  | cons v vs ih =>
    intro d
    have hstep : addAliases c d (v :: vs) = addAliases c (aliasStep c d v) vs := rfl
    rw [hstep, ih, aliasStep_get]
    cases hak : aliasKey? v with
    | none => simp [List.filterMap_cons, hak]
    | some b =>
      simp only [List.filterMap_cons, hak, List.mem_cons, Option.some.injEq]
      by_cases hm : k ∈ vs.filterMap aliasKey?
      · simp [hm]
      · by_cases hb : b = k
        · simp [hb, hm]
        · simp [hb, hm, Ne.symm hb]

lemma processRecord_get (d : Lookup) (r : RefRecord) (k : Str) :
    dictGet? (processRecord d r) k =
      if k ∈ recordKeys r then some (pyStrip r.nameVal) else dictGet? d k := by
  unfold processRecord recordKeys
  by_cases hc : pyStrip r.nameVal = []
  · simp [hc]
  · simp only [hc, if_false]
    by_cases hk : normalize_text (pyStrip r.nameVal) = []
    · simp only [hk, if_true, addAliases_get, List.append_nil]
    · simp only [hk, if_false, dictGet?_insert, addAliases_get, List.mem_append,
        List.mem_singleton]
      by_cases h1 : k = normalize_text (pyStrip r.nameVal)
      · simp [h1]
      · by_cases h2 : k ∈ (some r.nameVal :: r.otherVals).filterMap aliasKey?
        · simp [h1, h2]
        · simp [h1, h2]

lemma foldl_processRecord_not_written (k : Str) :
    ∀ (w : List RefRecord) (d : Lookup), (∀ r ∈ w, k ∉ recordKeys r) →
      dictGet? (w.foldl processRecord d) k = dictGet? d k := by
  intro w
  induction w with
  | nil => intro d _; rfl
  | cons r w ih =>
    intro d h
    have hr : k ∉ recordKeys r := h r (List.mem_cons_self r w)
    have hw : ∀ r2 ∈ w, k ∉ recordKeys r2 := fun r2 hm => h r2 (List.mem_cons_of_mem r hm)
    simp only [List.foldl_cons, ih _ hw, processRecord_get, hr, if_false]

lemma foldl_processRecord_get_some (k v : Str) :
    ∀ (w : List RefRecord) (d : Lookup),
      dictGet? (w.foldl processRecord d) k = some v →
      dictGet? d k = some v ∨ ∃ r ∈ w, k ∈ recordKeys r ∧ v = pyStrip r.nameVal := by
  intro w
  induction w with
  | nil => intro d h; exact Or.inl h
  | cons r w ih =>
    intro d h
    rcases ih _ h with h1 | h2
    · rw [processRecord_get] at h1
      by_cases hm : k ∈ recordKeys r
      · right
        refine ⟨r, List.mem_cons_self r w, hm, ?_⟩
        rw [if_pos hm] at h1
        exact (Option.some.injEq _ _ ▸ h1.symm)
      · left
        rwa [if_neg hm] at h1
    · right
      obtain ⟨r2, hr2, hk2, hv2⟩ := h2
      exact ⟨r2, List.mem_cons_of_mem r hr2, hk2, hv2⟩

lemma aliasKey?_ne_nil (v : Option Str) (k : Str) (h : aliasKey? v = some k) : k ≠ [] := by
  cases v with
  | none => simp [aliasKey?] at h
  | some val =>
    simp only [aliasKey?] at h
    by_cases h1 : pyStrip val = []
    · simp [h1] at h
    · by_cases h2 : (pyStrip val).map Char.toLower ∈ placeholderVals
      · simp [h1, h2] at h
      · by_cases h3 : normalize_text (pyStrip val) = []
        · simp [h1, h2, h3] at h
        · simp only [h1, h2, h3, if_false, Option.some.injEq] at h
          rw [← h]
          exact h3

lemma recordKeys_props (r : RefRecord) (k : Str) (h : k ∈ recordKeys r) :
    k ≠ [] ∧ pyStrip r.nameVal ≠ [] := by
  unfold recordKeys at h
  by_cases hc : pyStrip r.nameVal = []
  · simp [hc] at h
  · refine ⟨?_, hc⟩
    simp only [hc, if_false, List.mem_append] at h
    rcases h with h | h
    · obtain ⟨v, _, hv⟩ := List.mem_filterMap.mp h
      exact aliasKey?_ne_nil v k hv
    · by_cases hk : normalize_text (pyStrip r.nameVal) = []
      · simp [hk] at h
      · simp only [hk, if_false, List.mem_singleton] at h
        rw [h]; exact hk

lemma build_get_props (w : List RefRecord) (k v : Str)
    (h : dictGet? (build_country_lookup w) k = some v) :
    k ≠ [] ∧ v ≠ [] ∧ ∃ r ∈ w, v = pyStrip r.nameVal := by
  rcases foldl_processRecord_get_some k v w [] h with h1 | h2
  · simp [dictGet?] at h1
  · obtain ⟨r, hr, hk, hv⟩ := h2
    obtain ⟨hkne, hcne⟩ := recordKeys_props r k hk
    exact ⟨hkne, hv ▸ hcne, r, hr, hv⟩

/-! ### Claims C10, C5, C1 -/

/-- C10: `build_country_lookup` never inserts an empty key or an empty
value: every bound key is non-empty and every value is the non-empty,
whitespace-trimmed canonical-name field of some record of the input. -/
theorem c10_nonempty_keys_values (world : List RefRecord) (k v : Str)
    (h : dictGet? (build_country_lookup world) k = some v) :
    k ≠ [] ∧ v ≠ [] ∧ ∃ r ∈ world, v = pyStrip r.nameVal :=
  build_get_props world k v h

theorem c10_witness :
    "france".data ≠ [] ∧ "France".data ≠ [] ∧
      ∃ r ∈ [RefRecord.mk "France".data []], "France".data = pyStrip r.nameVal :=
  c10_nonempty_keys_values [RefRecord.mk "France".data []] "france".data "France".data
    (by decide)

/-- C5: alias collisions are resolved by last-write-wins in input
iteration order: if records `r1` and `r2` both write the normalized key
`k` and no record after `r2` writes `k`, the built table maps `k` to the
canonical name of `r2`, the record processed later. -/
theorem c5_last_write_wins (w1 : List RefRecord) (r1 : RefRecord) (w2 : List RefRecord)
    (r2 : RefRecord) (w3 : List RefRecord) (k : Str)
    (h1 : k ∈ recordKeys r1) (h2 : k ∈ recordKeys r2)
    (h3 : ∀ r ∈ w3, k ∉ recordKeys r) :
    dictGet? (build_country_lookup (w1 ++ r1 :: w2 ++ r2 :: w3)) k
      = some (pyStrip r2.nameVal) := by
  unfold build_country_lookup
  have hsplit : w1 ++ r1 :: w2 ++ r2 :: w3 = (w1 ++ r1 :: w2) ++ r2 :: w3 := by simp
  rw [hsplit, List.foldl_append, List.foldl_cons,
    foldl_processRecord_not_written k w3 _ h3, processRecord_get, if_pos h2]

theorem c5_witness :
    dictGet? (build_country_lookup
        [RefRecord.mk "France".data [], RefRecord.mk "FRANCE".data []])
      "france".data = some "FRANCE".data :=
  c5_last_write_wins [] (RefRecord.mk "France".data []) []
    (RefRecord.mk "FRANCE".data []) [] "france".data (by decide) (by decide) (by decide)

/-- C1 counterexample: in the two-record dataset below, `"X"` is a value
of the built table (under key `"z"`), yet resolving `"X"` itself returns
`some "Y"`, because the second record's alias `"X"` overwrote the first
record's self-mapping entry for key `"x"`.  So
`resolve(c, build(reference), false) == Some(c)` fails for the canonical
name `c = "X"`. -/
theorem c1_counterexample :
    dictGet? (build_country_lookup
        [RefRecord.mk "X".data [some "Z".data], RefRecord.mk "Y".data [some "X".data]])
      "z".data = some "X".data ∧
    infer_country_from_location (some "X".data)
      (build_country_lookup
        [RefRecord.mk "X".data [some "Z".data], RefRecord.mk "Y".data [some "X".data]])
      false = some "Y".data ∧
    some "Y".data ≠ some "X".data := by
  decide

/-- C1 amended: self-resolution holds for every canonical name whose
self-mapping entry survives in the built table: if the table still maps
`normalize(c)` to `c` (guaranteed when `c`'s record is processed, but a
later record's colliding alias may overwrite it), then
`resolve(c, build(reference), false) == Some(c)`. -/
theorem c1_self_mapping_amended (world : List RefRecord) (c : Str)
    (h : dictGet? (build_country_lookup world) (normalize_text c) = some c) :
    infer_country_from_location (some c) (build_country_lookup world) false = some c := by
  have hc : ¬c = [] := by
    intro hc
    subst hc
    exact (build_get_props world (normalize_text []) [] h).1 (by decide)
  simp only [infer_country_from_location, if_neg hc, h]

theorem c1_witness :
    infer_country_from_location (some "France".data)
      (build_country_lookup [RefRecord.mk "France".data []]) false
      = some "France".data :=
  c1_self_mapping_amended [RefRecord.mk "France".data []] "France".data (by decide)

/-! ### Claims C2 and C3: the resolver against the spec's wording -/

/-- Follows the spec's wording (§4.3 steps 1–4 and 6, region-code guess
disabled): `None` for empty/`None` input; whole-string normalized match
first; otherwise the mapped name of the first comma-split, trimmed,
non-empty token that matches, scanning tokens from rightmost to
leftmost; otherwise `None`. -/
def specResolveNoGuess (location : Option Str) (table : Lookup) : Option Str :=
  match location with
  | none => none
  | some loc =>
    if loc = [] then none
    else
      match dictGet? table (normalize_text loc) with
      | some v => some v
      | none =>
        let tokens := ((pySplit ',' loc).map pyStrip).filter (fun t => ¬t = [])
        match tokens.reverse.find? (fun t => (dictGet? table (normalize_text t)).isSome) with
        | some t => dictGet? table (normalize_text t)
        | none => none

/-- Follows the spec's wording (§4.3 step 5): one right-to-left pass in
which each token first undergoes the alias lookup, and on failure a raw
token of exactly two uppercase letters immediately yields the table's
mapping for `"united states"` when present and the literal
`"United States"` otherwise. -/
def specScanWithGuess (table : Lookup) : List Str → Option Str
  | [] => none
  | t :: rest =>
    match dictGet? table (normalize_text t) with
    | some v => some v
    | none =>
      if isTwoUpperAZ t then
        match dictGet? table "united states".data with
        | some v => some v
        | none => some "United States".data
      else specScanWithGuess table rest

/-- Follows the spec's wording (§4.3) with the region-code guess
enabled: steps 1–3 as in `specResolveNoGuess`, then the interleaved
single pass of `specScanWithGuess`. -/
def specResolveWithGuess (location : Option Str) (table : Lookup) : Option Str :=
  match location with
  | none => none
  | some loc =>
    if loc = [] then none
    else
      match dictGet? table (normalize_text loc) with
      | some v => some v
      | none =>
        let tokens := ((pySplit ',' loc).map pyStrip).filter (fun t => ¬t = [])
        specScanWithGuess table tokens.reverse

lemma normalize_usFallback : normalize_text usFallback = "united states".data := by decide

lemma scanTokens_false_eq_find (tbl : Lookup) :
    ∀ ts : List Str, scanTokens tbl false ts =
      match ts.find? (fun t => (dictGet? tbl (normalize_text t)).isSome) with
      | some t => dictGet? tbl (normalize_text t)
      | none => none := by
  intro ts
  induction ts with
  | nil => rfl
  | cons t ts ih =>
    simp only [List.find?]
    cases hg : dictGet? tbl (normalize_text t) with
    | some v => simp [scanTokens, hg]
    | none => simp [scanTokens, hg, ih]

lemma infer_false_eq_specNoGuess (location : Option Str) (table : Lookup) :
    infer_country_from_location location table false = specResolveNoGuess location table := by
  cases location with
  | none => rfl
  | some loc =>
    by_cases hl : loc = []
    · subst hl; rfl
    · simp only [infer_country_from_location, specResolveNoGuess, if_neg hl]
      cases hg : dictGet? table (normalize_text loc) with
      | some v => rfl
      | none => exact scanTokens_false_eq_find table _

lemma scanTokens_true_eq_specScan (tbl : Lookup) :
    ∀ ts : List Str, scanTokens tbl true ts = specScanWithGuess tbl ts := by
  intro ts
  induction ts with
  | nil => rfl
  | cons t ts ih =>
    simp only [scanTokens, specScanWithGuess, Bool.true_and, normalize_usFallback]
    cases hg : dictGet? tbl "united states".data with
    | some v => cases dictGet? tbl (normalize_text t) <;> simp [ih]
    | none => cases dictGet? tbl (normalize_text t) <;> simp [ih, usFallback]

lemma infer_true_eq_specWithGuess (location : Option Str) (table : Lookup) :
    infer_country_from_location location table true = specResolveWithGuess location table := by
  cases location with
  | none => rfl
  | some loc =>
    by_cases hl : loc = []
    · subst hl; rfl
    · simp only [infer_country_from_location, specResolveWithGuess, if_neg hl]
      cases hg : dictGet? table (normalize_text loc) with
      | some v => rfl
      | none => exact scanTokens_true_eq_specScan table _

/-- C2: with the region-code guess disabled, the resolver behaves exactly
as specified: `None` for empty/`None` input; immediate whole-string
normalized match; otherwise the mapped name of the first comma-split,
trimmed, non-empty token matching in right-to-left order; otherwise
`None` (the equation with `specResolveNoGuess`, which transcribes the
spec's algorithm). -/
theorem c2_resolver_no_guess (location : Option Str) (table : Lookup) :
    infer_country_from_location location table false = specResolveNoGuess location table :=
  infer_false_eq_specNoGuess location table

/-- C3: with the region-code guess enabled, the alias lookup and the
two-uppercase-letter region-code check are interleaved in one
right-to-left pass, the region-code hit immediately returning the
table's mapping for `"united states"` when present and the literal
`"United States"` otherwise (equation with `specResolveWithGuess`); with
the flag disabled the check never runs (equation with
`specResolveNoGuess`, which has no region-code branch). -/
theorem c3_region_code_interleaving :
    (∀ (location : Option Str) (table : Lookup),
        infer_country_from_location location table true
          = specResolveWithGuess location table) ∧
    (∀ (location : Option Str) (table : Lookup),
        infer_country_from_location location table false
          = specResolveNoGuess location table) :=
  ⟨infer_true_eq_specWithGuess, infer_false_eq_specNoGuess⟩

/-! ### Claims C6 and C7: aggregation -/

/-- Counting does not depend on which lawful `BEq` instance for
`Str` is in scope. -/
lemma count_instances (a : Str) (l : List Str) :
    l.count a = @List.count Str instBEqOfDecidableEq a l := by
  induction l with
  | nil => rfl
  | cons b l ih =>
    by_cases hab : b = a
    · subst hab
      simp [List.count_cons, ih]
    · simp [List.count_cons, ih, hab]

/-- C6: `aggregate` discards `None` entries and counts the rest with
multiplicity: whenever it succeeds, the sum of all counts in the
resulting table equals the number of non-`None` entries of the input. -/
theorem c6_aggregate_total (resolved : List (Option Str)) (t : List (Str × Nat))
    (h : aggregate resolved = Except.ok t) :
    (t.map Prod.snd).sum = (resolved.filterMap id).length := by
  simp only [aggregate] at h
  by_cases hx : resolved.filterMap id = []
  · simp [hx] at h
  · simp only [hx, if_false, Except.ok.injEq] at h
    subst h
    unfold value_counts
    rw [List.map_map]
    have hfun : (Prod.snd ∘ fun n => (n, (resolved.filterMap id).count n))
        = fun n => (resolved.filterMap id).count n := rfl
    rw [hfun]
    simp only [count_instances]
    exact List.sum_map_count_dedup_eq_length (resolved.filterMap id)

theorem c6_witness :
    ((value_counts ["France".data, "France".data]).map Prod.snd).sum
      = ([some "France".data, none, some "France".data].filterMap id).length :=
  c6_aggregate_total [some "France".data, none, some "France".data]
    (value_counts ["France".data, "France".data]) rfl

/-- C7: `aggregate` fails (with the no-data error) exactly when every
entry of the input is `None`; on success the count table is non-empty. -/
theorem c7_no_data_error (resolved : List (Option Str)) :
    ((∃ msg, aggregate resolved = Except.error msg) ↔ ∀ x ∈ resolved, x = none) ∧
    (∀ t, aggregate resolved = Except.ok t → ¬t = []) := by
  constructor
  · constructor
    · rintro ⟨msg, hmsg⟩
      simp only [aggregate] at hmsg
      by_cases hx : resolved.filterMap id = []
      · intro x hxm
        simpa using List.filterMap_eq_nil_iff.mp hx x hxm
      · simp [hx] at hmsg
    · intro hall
      have hx : resolved.filterMap id = [] := by
        rw [List.filterMap_eq_nil_iff]
        intro a ha
        simpa using hall a ha
      exact ⟨"No resolvable countries from location values to plot.",
        by simp [aggregate, hx]⟩
  · intro t ht
    simp only [aggregate] at ht
    by_cases hx : resolved.filterMap id = []
    · simp [hx] at ht
    · simp only [hx, if_false, Except.ok.injEq] at ht
      subst ht
      intro hnil
      unfold value_counts at hnil
      rw [List.map_eq_nil_iff, List.dedup_eq_nil] at hnil
      exact hx hnil

theorem c7_witness : ∃ msg, aggregate [(none : Option Str)] = Except.error msg :=
  (c7_no_data_error [none]).1.mpr (by decide)

/-! ### Claim C9: range of the resolver -/

lemma scanTokens_range (tbl : Lookup) (allow : Bool) (v : Str) :
    ∀ ts : List Str, scanTokens tbl allow ts = some v →
      (∃ k, dictGet? tbl k = some v) ∨
        (allow = true ∧ dictGet? tbl "united states".data = none
          ∧ v = "United States".data) := by
  intro ts
  induction ts with
  | nil => intro h; exact absurd h (by simp [scanTokens])
  | cons t ts ih =>
    intro h
    unfold scanTokens at h
    cases hg : dictGet? tbl (normalize_text t) with
    | some w =>
      rw [hg] at h
      simp only [Option.some.injEq] at h
      exact Or.inl ⟨normalize_text t, by rw [hg, h]⟩
    | none =>
      rw [hg] at h
      by_cases ha : (allow && isTwoUpperAZ t) = true
      · rw [if_pos ha] at h
        simp only [Option.some.injEq, normalize_usFallback] at h
        cases hus : dictGet? tbl "united states".data with
        | some w =>
          rw [hus] at h
          simp only [Option.getD_some] at h
          exact Or.inl ⟨"united states".data, by rw [hus, h]⟩
        | none =>
          rw [hus] at h
          simp only [Option.getD_none] at h
          exact Or.inr ⟨(Bool.and_eq_true _ _ |>.mp ha).1, rfl, h.symm⟩
      · rw [if_neg ha] at h
        exact ih h

/-- C9: every non-`None` result of `infer_country_from_location` is a
value stored in the table, except that — only with the region-code guess
enabled and `"united states"` absent from the table — it can be the
literal `"United States"`.  In particular, with the flag off the
resolver only outputs values that the builder put into the table. -/
theorem c9_range_invariant (location : Option Str) (table : Lookup) (allow : Bool) (v : Str)
    (h : infer_country_from_location location table allow = some v) :
    (∃ k, dictGet? table k = some v) ∨
      (allow = true ∧ dictGet? table "united states".data = none
        ∧ v = "United States".data) := by
  cases location with
  | none => exact absurd h (by simp [infer_country_from_location])
  | some loc =>
    by_cases hl : loc = []
    · rw [hl] at h
      exact absurd h (by simp [infer_country_from_location])
    · simp only [infer_country_from_location, if_neg hl] at h
      cases hg : dictGet? table (normalize_text loc) with
      | some w =>
        rw [hg] at h
        simp only [Option.some.injEq] at h
        exact Or.inl ⟨normalize_text loc, by rw [hg, h]⟩
      | none =>
        rw [hg] at h
        exact scanTokens_range table allow v _ h

theorem c9_witness :
    (∃ k, dictGet? (dictInsert [] "france".data "France".data) k = some "France".data) ∨
      (false = true
        ∧ dictGet? (dictInsert [] "france".data "France".data) "united states".data = none
        ∧ "France".data = "United States".data) :=
  c9_range_invariant (some "Paris, France".data)
    (dictInsert [] "france".data "France".data) false "France".data (by decide)

/-! ### Claim C8: the left join -/

/-- C8 counterexample: the count table produced from the two resolved
names `"France"` and `"FRANCE"` has two rows whose trimmed-lowercased
names coincide, so the pandas left merge pairs the single reference
record with both rows: the record appears twice in the output, not
exactly once. -/
theorem c8_counterexample :
    ((joinForReport [RefRecord.mk "France".data []]
        (value_counts ["France".data, "FRANCE".data])).map Prod.fst).count
      (RefRecord.mk "France".data []) ≠ 1 := by
  decide

/-- With pairwise-distinct keys, filtering for a key returns exactly the
row that `find?` locates, or nothing. -/
lemma filter_eq_of_nodup_keys {α β : Type} [DecidableEq β] (f : α → β) (y : β) :
    ∀ l : List α, (l.map f).Nodup →
      l.filter (fun p => f p = y)
        = (match l.find? (fun p => f p = y) with
           | some p => [p]
           | none => []) := by
  intro l
  induction l with
  | nil => intro _; rfl
  | cons a l ih =>
    intro hnd
    rw [List.map_cons, List.nodup_cons] at hnd
    obtain ⟨hna, hnd⟩ := hnd
    rw [List.filter_cons, List.find?]
    by_cases hy : f a = y
    · have hrest : l.filter (fun p => f p = y) = [] := by
        rw [List.filter_eq_nil_iff]
        intro p hp
        simp only [decide_eq_true_eq]
        intro hfp
        exact hna ((hfp.trans hy.symm) ▸ List.mem_map_of_mem f hp)
      simp [hy, hrest]
    · simp [hy, ih hnd]

/-- C8 amended: provided the trimmed-lowercased names of the count table
are pairwise distinct (in general the merge repeats a reference record
once per matching count row), the left join pairs every reference record
exactly once with its matching count, or with the "no data" marker
`none` when no count row matches. -/
theorem c8_left_join_amended (world : List RefRecord) (cc : List (Str × Nat))
    (hnodup : (cc.map (fun p => joinName p.1)).Nodup) :
    joinForReport world cc
      = world.map (fun r =>
          (r, (cc.find? (fun p => joinName p.1 = joinName r.nameVal)).map Prod.snd)) := by
  induction world with
  | nil => rfl
  | cons r world ih =>
    simp only [joinForReport, List.flatMap_cons, List.map_cons]
    rw [filter_eq_of_nodup_keys (fun p => joinName p.1) (joinName r.nameVal) cc hnodup]
    cases hf : cc.find? (fun p => joinName p.1 = joinName r.nameVal) with
    | some p =>
      simp only [hf]
      rw [show joinForReport world cc = world.flatMap (fun r =>
            let ms := cc.filter (fun p => joinName p.1 = joinName r.nameVal)
            if ms = [] then [(r, none)] else ms.map (fun p => (r, some p.2))) from rfl] at ih
      simp [ih]
    | none =>
      simp only [hf]
      rw [show joinForReport world cc = world.flatMap (fun r =>
            let ms := cc.filter (fun p => joinName p.1 = joinName r.nameVal)
            if ms = [] then [(r, none)] else ms.map (fun p => (r, some p.2))) from rfl] at ih
      simp [ih]

theorem c8_witness :
    joinForReport [RefRecord.mk "Germany".data []] [("Germany".data, 3)]
      = [RefRecord.mk "Germany".data []].map (fun r =>
          (r, ([(("Germany".data : Str), 3)].find?
                (fun p => joinName p.1 = joinName r.nameVal)).map Prod.snd)) :=
  c8_left_join_amended [RefRecord.mk "Germany".data []] [("Germany".data, 3)] (by decide)

/-! ### Claim C4: idempotence of `_normalize_text` -/

/-- C4 counterexample: `_normalize_text` strips the string *before*
replacing punctuation by spaces, so a trailing period becomes an
untrimmed trailing space: `normalize("a.") = "a "`, while a second
application yields `"a"`.  Idempotence fails. -/
theorem c4_counterexample :
    normalize_text (normalize_text "a.".data) ≠ normalize_text "a.".data := by
  decide

lemma toLower_eq_of_not_upper (c : Char) (h : ¬(c.toNat ≥ 65 ∧ c.toNat ≤ 90)) :
    c.toLower = c := by
  simp only [Char.toLower]
  rw [if_neg h]

lemma char_toLower_toLower (c : Char) : c.toLower.toLower = c.toLower := by
  by_cases h : c.toNat ≥ 65 ∧ c.toNat ≤ 90
  · have hc : c.toLower = Char.ofNat (c.toNat + 32) := by
      simp only [Char.toLower]
      rw [if_pos h]
    rw [hc]
    obtain ⟨h1, h2⟩ := h
    obtain ⟨n, hn⟩ : ∃ n, n = c.toNat := ⟨_, rfl⟩
    rw [← hn] at h1 h2
    rw [← hn]
    interval_cases n <;> decide
  · rw [toLower_eq_of_not_upper c h, toLower_eq_of_not_upper c h]

lemma map_id_of_forall {f : Char → Char} :
    ∀ l : Str, (∀ c ∈ l, f c = c) → l.map f = l := by
  intro l
  induction l with
  | nil => intro _; rfl
  | cons a l ih =>
    intro h
    rw [List.map_cons, h a (List.mem_cons_self a l),
      ih (fun c hc => h c (List.mem_cons_of_mem a hc))]

lemma mem_dropWhile (c : Char) (p : Char → Bool) :
    ∀ l : Str, c ∈ l.dropWhile p → c ∈ l := by
  intro l
  induction l with
  | nil => intro h; exact h
  | cons a l ih =>
    intro h
    rw [List.dropWhile_cons] at h
    by_cases ha : p a = true
    · rw [if_pos ha] at h
      exact List.mem_cons_of_mem a (ih h)
    · rw [if_neg ha] at h
      exact h

lemma mem_pyStrip (c : Char) (l : Str) (h : c ∈ pyStrip l) : c ∈ l := by
  unfold pyStrip at h
  rw [List.mem_reverse] at h
  have h1 := mem_dropWhile c isSpacePy _ h
  rw [List.mem_reverse] at h1
  exact mem_dropWhile c isSpacePy _ h1

lemma mem_collapseAux (c : Char) :
    ∀ (l : Str) (b : Bool), c ∈ collapseAux b l → c = ' ' ∨ c ∈ l := by
  intro l
  induction l with
  | nil => intro b h; simp [collapseAux] at h
  | cons a l ih =>
    intro b h
    unfold collapseAux at h
    by_cases ha : isSpacePy a = true
    · rw [if_pos ha] at h
      cases b with
      | true =>
        simp only [if_true] at h
        rcases ih true h with h1 | h1
        · exact Or.inl h1
        · exact Or.inr (List.mem_cons_of_mem a h1)
      | false =>
        simp only [Bool.false_eq_true, if_false] at h
        rcases List.mem_cons.mp h with h1 | h1
        · exact Or.inl h1
        · rcases ih true h1 with h2 | h2
          · exact Or.inl h2
          · exact Or.inr (List.mem_cons_of_mem a h2)
    · rw [if_neg ha] at h
      rcases List.mem_cons.mp h with h1 | h1
      · exact Or.inr (h1 ▸ List.mem_cons_self a l)
      · rcases ih false h1 with h2 | h2
        · exact Or.inl h2
        · exact Or.inr (List.mem_cons_of_mem a h2)

lemma mem_punctToSpace (c : Char) (l : Str) (h : c ∈ punctToSpace l) :
    c = ' ' ∨ c ∈ l := by
  unfold punctToSpace at h
  rw [List.mem_map] at h
  obtain ⟨a, ha, hac⟩ := h
  by_cases hw : (isWordPy a || isSpacePy a) = true
  · rw [if_pos hw] at hac
    exact Or.inr (hac ▸ ha)
  · rw [if_neg hw] at hac
    exact Or.inl hac.symm

lemma exists_toLower_of_mem_normalize (c : Char) (s : Str)
    (h : c ∈ normalize_text s) : c = ' ' ∨ ∃ x, c = Char.toLower x := by
  unfold normalize_text collapseSpaces at h
  rcases mem_collapseAux c _ false h with h1 | h1
  · exact Or.inl h1
  rcases mem_punctToSpace c _ h1 with h2 | h2
  · exact Or.inl h2
  have h3 := mem_pyStrip c _ h2
  rw [List.mem_map] at h3
  obtain ⟨x, _, hx⟩ := h3
  exact Or.inr ⟨x, hx.symm⟩

lemma map_toLower_normalize (s : Str) :
    (normalize_text s).map Char.toLower = normalize_text s := by
  apply map_id_of_forall
  intro c hc
  rcases exists_toLower_of_mem_normalize c s hc with h | ⟨x, hx⟩
  · subst h; decide
  · subst hx; exact char_toLower_toLower x

lemma isSpacePy_not_word (c : Char) (h : isSpacePy c = true) : isWordPy c = false := by
  unfold isSpacePy at h
  simp only [Bool.or_eq_true, decide_eq_true_eq] at h
  rcases h with ((((h | h) | h) | h) | h) | h <;> subst h <;> decide

lemma punct_word_or_space (l : Str) :
    ∀ c ∈ punctToSpace l, isWordPy c = true ∨ isSpacePy c = true := by
  intro c h
  unfold punctToSpace at h
  rw [List.mem_map] at h
  obtain ⟨a, _, hac⟩ := h
  by_cases hw : (isWordPy a || isSpacePy a) = true
  · rw [if_pos hw] at hac
    rw [← hac]
    exact (Bool.or_eq_true _ _).mp hw
  · rw [if_neg hw] at hac
    rw [← hac]
    exact Or.inr (by decide)

lemma collapse_word_or_space :
    ∀ (l : Str) (b : Bool), (∀ c ∈ l, isWordPy c = true ∨ isSpacePy c = true) →
      ∀ c ∈ collapseAux b l, isWordPy c = true ∨ c = ' ' := by
  intro l
  induction l with
  | nil => intro b _ c hc; simp [collapseAux] at hc
  | cons a l ih =>
    intro b hall c hc
    have hall' : ∀ d ∈ l, isWordPy d = true ∨ isSpacePy d = true :=
      fun d hd => hall d (List.mem_cons_of_mem a hd)
    unfold collapseAux at hc
    by_cases ha : isSpacePy a = true
    · rw [if_pos ha] at hc
      cases b with
      | true =>
        simp only [if_true] at hc
        exact ih true hall' c hc
      | false =>
        simp only [Bool.false_eq_true, if_false] at hc
        rcases List.mem_cons.mp hc with h1 | h1
        · exact Or.inr h1
        · exact ih true hall' c h1
    · rw [if_neg ha] at hc
      rcases List.mem_cons.mp hc with h1 | h1
      · subst h1
        rcases hall c (List.mem_cons_self c l) with h2 | h2
        · exact Or.inl h2
        · exact absurd h2 ha
      · exact ih false hall' c h1

/-- Adjacent characters are never both whitespace. -/
def noTwoSpaces (a b : Char) : Prop := ¬(isSpacePy a = true ∧ isSpacePy b = true)

lemma collapseAux_true_head :
    ∀ (l : Str) (c : Char) (rest : Str),
      collapseAux true l = c :: rest → isSpacePy c = false := by
  intro l
  induction l with
  | nil => intro c rest h; simp [collapseAux] at h
  | cons a l ih =>
    intro c rest h
    unfold collapseAux at h
    by_cases ha : isSpacePy a = true
    · rw [if_pos ha] at h
      simp only [if_true] at h
      exact ih c rest h
    · rw [if_neg ha] at h
      rw [List.cons.injEq] at h
      rw [← h.1]
      exact Bool.not_eq_true _ |>.mp ha

lemma chain'_collapseAux :
    ∀ (l : Str) (b : Bool), List.Chain' noTwoSpaces (collapseAux b l) := by
  intro l
  induction l with
  | nil => intro b; simp [collapseAux]
  | cons a l ih =>
    intro b
    unfold collapseAux
    by_cases ha : isSpacePy a = true
    · rw [if_pos ha]
      cases b with
      | true =>
        simp only [if_true]
        exact ih true
      | false =>
        simp only [Bool.false_eq_true, if_false]
        rw [List.chain'_cons']
        refine ⟨?_, ih true⟩
        intro y hy
        cases hl : collapseAux true l with
        | nil => rw [hl] at hy; simp at hy
        | cons d rest =>
          rw [hl] at hy
          simp only [List.head?_cons, Option.mem_def, Option.some.injEq] at hy
          subst hy
          have hd := collapseAux_true_head l d rest hl
          intro hcon
          rw [hd] at hcon
          exact Bool.false_ne_true hcon.2
    · rw [if_neg ha]
      rw [List.chain'_cons']
      refine ⟨?_, ih false⟩
      intro y _
      intro hcon
      exact ha hcon.1

lemma chain'_dropWhile (p : Char → Bool) :
    ∀ l : Str, List.Chain' noTwoSpaces l → List.Chain' noTwoSpaces (l.dropWhile p) := by
  intro l
  induction l with
  | nil => intro h; exact h
  | cons a l ih =>
    intro h
    rw [List.dropWhile_cons]
    by_cases ha : p a = true
    · rw [if_pos ha]
      exact ih h.tail
    · rw [if_neg ha]
      exact h

lemma chain'_reverse_nts (l : Str) (h : List.Chain' noTwoSpaces l) :
    List.Chain' noTwoSpaces l.reverse := by
  rw [List.chain'_reverse]
  exact h.imp (fun _ _ hab hcon => hab ⟨hcon.2, hcon.1⟩)

lemma chain'_pyStrip (l : Str) (h : List.Chain' noTwoSpaces l) :
    List.Chain' noTwoSpaces (pyStrip l) := by
  unfold pyStrip
  exact chain'_reverse_nts _ (chain'_dropWhile _ _ (chain'_reverse_nts _ (chain'_dropWhile _ _ h)))

lemma collapseAux_true_of_head_not_space :
    ∀ l : Str, (∀ c rest, l = c :: rest → isSpacePy c = false) →
      collapseAux true l = collapseAux false l := by
  intro l h
  cases l with
  | nil => rfl
  | cons a l =>
    have ha := h a l rfl
    unfold collapseAux
    rw [if_neg (by rw [ha]; exact Bool.false_ne_true), if_neg (by rw [ha]; exact Bool.false_ne_true)]

lemma collapse_id :
    ∀ l : Str, (∀ c ∈ l, isWordPy c = true ∨ c = ' ') →
      List.Chain' noTwoSpaces l → collapseAux false l = l := by
  intro l
  induction l with
  | nil => intro _ _; rfl
  | cons a l ih =>
    intro hall hch
    have hall' : ∀ c ∈ l, isWordPy c = true ∨ c = ' ' :=
      fun c hc => hall c (List.mem_cons_of_mem a hc)
    unfold collapseAux
    by_cases ha : isSpacePy a = true
    · have ha' : a = ' ' := by
        rcases hall a (List.mem_cons_self a l) with h | h
        · rw [isSpacePy_not_word a ha] at h
          exact absurd h (by simp)
        · exact h
      rw [if_pos ha]
      simp only [Bool.false_eq_true, if_false]
      have hhead : ∀ c rest, l = c :: rest → isSpacePy c = false := by
        intro c rest hl
        subst hl
        have hrel := (List.chain'_cons'.mp hch).1 c (by simp)
        by_contra hc
        rw [Bool.not_eq_false] at hc
        exact hrel ⟨ha, hc⟩
      rw [collapseAux_true_of_head_not_space l hhead, ih hall' hch.tail, ha']
    · rw [if_neg ha]
      rw [ih hall' hch.tail]

/-- C4 amended: `_normalize_text` is idempotent only up to a final trim:
a second application equals `strip` of the first
(`normalize(normalize(s)) == strip(normalize(s))` for every string);
full idempotence fails exactly when edge punctuation leaves an untrimmed
leading/trailing space, as in `s = "a."`. -/
theorem c4_normalize_idempotent_amended (s : Str) :
    normalize_text (normalize_text s) = pyStrip (normalize_text s) := by
  have hwos : ∀ c ∈ normalize_text s, isWordPy c = true ∨ c = ' ' :=
    collapse_word_or_space _ false (punct_word_or_space _)
  have hch : List.Chain' noTwoSpaces (normalize_text s) := chain'_collapseAux _ false
  show collapseSpaces (punctToSpace (pyStrip ((normalize_text s).map Char.toLower)))
      = pyStrip (normalize_text s)
  rw [map_toLower_normalize]
  have hwos' : ∀ c ∈ pyStrip (normalize_text s), isWordPy c = true ∨ c = ' ' :=
    fun c hc => hwos c (mem_pyStrip c _ hc)
  have hpunct : punctToSpace (pyStrip (normalize_text s)) = pyStrip (normalize_text s) := by
    unfold punctToSpace
    apply map_id_of_forall
    intro c hc
    rcases hwos' c hc with h | h
    · rw [if_pos]
      rw [h]
      exact Bool.true_or _
    · subst h
      decide
  rw [hpunct]
  exact collapse_id _ hwos' (chain'_pyStrip _ hch)
